import Mathlib

/-!
Shallow embedding of `parser_agent/hn_part_time_jobs.py`: the item fetcher
with its module-level cache, the wave-based comment traversal, the retry
configuration of the HTTP session, the keyword matcher and the HTML
normalizer, together with theorems checking the design document's claims
against this embedding.

Modelling conventions:
* Python dict items are modelled by the `Item` structure holding exactly the
  fields the traversal reads (`deleted`, `dead`, `text`, `kids`); a missing
  key reads as the falsy default (`false` / `""` / `[]`), matching
  `result.get(...)` truthiness.  Fields only used by the out-of-scope
  formatter (`by`, `time`, `id`) are omitted.
* The network is a deterministic function from item id to outcome: a request
  error, a JSON `null` payload, or a JSON object payload.  `fetch_item`
  returns the Python return value (`None` is `Option.none`: both an error and
  a `null` payload produce it), the new state of the module-level
  `_ITEM_CACHE` (threaded explicitly), and the number of network calls made.
* The `ThreadPoolExecutor` wave of `fetch_comments` is flattened to
  sequential processing of the wave list in order: `as_completed` yields the
  futures in some order, and the claims under check are insensitive to which
  order is picked.  The progress-logging statement is I/O only and dropped.
-/

namespace HnJobs

/-- Fields of an HN item dict that the traversal reads.  Missing keys are
modelled by the falsy defaults used by `result.get`. -/
structure Item where
  deleted : Bool
  dead : Bool
  text : String
  kids : List Int
deriving DecidableEq, Repr

/-- Outcome of one GET of `HN_ITEM_URL.format(id)`: a `requests` exception,
a decoded JSON `null`, or a decoded JSON object. -/
inductive NetResult where
  | err
  | null
  | item (it : Item)
deriving DecidableEq, Repr

/-- Deterministic network of one run: item id to response. -/
abbrev Net : Type := Int → NetResult

/-- State of the module-level `_ITEM_CACHE` dict, as an association list. -/
abbrev Cache : Type := List (Int × Item)

/-- Lookup in the cache (`item_id in _ITEM_CACHE` / `_ITEM_CACHE[item_id]`). -/
def lookupC : Cache → Int → Option Item
  | [], _ => none
  | (k, v) :: rest, id => if k = id then some v else lookupC rest id

/-- Network described by a finite table: listed ids answer with their item,
every other id answers with JSON `null` (the HN API's answer for an unknown
id). -/
def netOf (table : List (Int × Item)) : Net :=
  fun id => match lookupC table id with
    | some it => NetResult.item it
    | none => NetResult.null

/-- Embedding of `fetch_item` (lines 111-125): return the cached item if
present; otherwise GET the item URL, cache the payload only when it is a
dict, return `None` on a `requests` exception (and for a `null` payload,
since `return data` then returns Python `None`).  The result is
(returned value, new `_ITEM_CACHE`, number of network calls). -/
def fetch_item (net : Net) (cache : Cache) (item_id : Int) :
    Option Item × Cache × Nat :=
  match lookupC cache item_id with
  | some it => (some it, cache, 0)
  | none =>
    match net item_id with
    | NetResult.err => (none, cache, 1)
    | NetResult.null => (none, cache, 1)
    | NetResult.item it => (some it, (item_id, it) :: cache, 1)

/-- Embedding of the body of one `while todo_ids` iteration of
`fetch_comments` (lines 140-155), processing the wave list sequentially:
skip falsy results, skip deleted/dead items (before ever looking at their
kids), append items with non-empty text to `comments`, and when
`include_replies` is set collect each kid not yet in `_ITEM_CACHE` into the
next wave.  Returns (new cache, new comments, next wave). -/
def processWave (net : Net) (include_replies : Bool) :
    List Int → Cache → List Item → Cache × List Item × List Int
  | [], cache, comments => (cache, comments, [])
  | cid :: rest, cache, comments =>
    match fetch_item net cache cid with
    | (none, cache', _) => processWave net include_replies rest cache' comments
    | (some it, cache', _) =>
      if it.deleted || it.dead then
        processWave net include_replies rest cache' comments
      else
        let comments' := if it.text = "" then comments else comments ++ [it]
        let newKids :=
          if include_replies && !it.kids.isEmpty then
            it.kids.filter (fun k => (lookupC cache' k).isNone)
          else []
        match processWave net include_replies rest cache' comments' with
        | (cacheF, commentsF, nextRest) => (cacheF, commentsF, newKids ++ nextRest)

/-- Embedding of the `while todo_ids` loop of `fetch_comments`, with `fuel`
bounding the number of non-empty waves; `none` means the bound was hit
before the pending set emptied. -/
def fetchLoop (net : Net) (include_replies : Bool) :
    Nat → List Int → Cache → List Item → Option (List Item × Cache)
  | _, [], cache, comments => some (comments, cache)
  | 0, _ :: _, _, _ => none
  | fuel + 1, cid :: rest, cache, comments =>
    match processWave net include_replies (cid :: rest) cache comments with
    | (cache', comments', next) => fetchLoop net include_replies fuel next cache' comments'

/-- Embedding of `list(dict.fromkeys(comment_ids))`: stable deduplication. -/
def pyDedup (seen : List Int) : List Int → List Int
  | [] => []
  | x :: rest => if x ∈ seen then pyDedup seen rest else x :: pyDedup (x :: seen) rest

/-- Embedding of `fetch_comments` (lines 128-159).  `cache0` is the state of
the module-level `_ITEM_CACHE` when the call starts (the dict persists
across calls in the source); the returned pair is (the `comments` return
value, the cache state the call leaves behind). -/
def fetch_comments (net : Net) (comment_ids : List Int)
    (include_replies : Bool) (cache0 : Cache) (fuel : Nat) :
    Option (List Item × Cache) :=
  fetchLoop net include_replies fuel (pyDedup [] comment_ids) cache0 []

/-! Retry layer.  `get_session` (lines 57-64) configures
`urllib3.util.retry.Retry(total=retries, status_forcelist=(429, 500, 502,
503, 504))` on the session's adapters; the loop below embeds the documented
behaviour of that configuration for GET requests: each attempt reads the
server's status, a status outside the forcelist is returned to the caller,
a forcelist status consumes one unit of the `total` budget and retries, and
a forcelist status arriving with an empty budget surfaces the terminal
retry error (`requests` raises it as a `RequestException`). -/

/-- Default of the `retries` parameter of `get_session`. -/
def get_session_retries_default : Nat := 3

/-- Statuses of `status_forcelist` in `get_session`. -/
def status_forcelist : List Nat := [429, 500, 502, 503, 504]

/-- Terminal error surfaced when the retry budget is exhausted. -/
inductive NetworkError where
  | tooManyRetries
deriving DecidableEq, Repr

/-- One GET through the retry-configured session: `server n` is the status
answering the `n`-th attempt (counted from `attempt`), `budget` the
remaining `total`.  Returns the outcome and the number of attempts made. -/
def retryGet (server : Nat → Nat) : Nat → Nat → Except NetworkError Nat × Nat
  | attempt, 0 =>
    if server attempt ∈ status_forcelist then
      (Except.error NetworkError.tooManyRetries, 1)
    else (Except.ok (server attempt), 1)
  | attempt, b + 1 =>
    if server attempt ∈ status_forcelist then
      let r := retryGet server (attempt + 1) b
      (r.1, r.2 + 1)
    else (Except.ok (server attempt), 1)

/-- GET through `get_session retries`: attempts start at index 0 with the
full `total = retries` budget. -/
def sessionGet (server : Nat → Nat) (retries : Nat) :
    Except NetworkError Nat × Nat :=
  retryGet server 0 retries

/-! Text normalizer: `strip_html` (lines 67-81), embedding the
BeautifulSoup-free fallback path; on the tag-free inputs all theorems below
use, the two paths coincide by the contract of §4.4 of the design. -/

/-- Whitespace in the sense of `str.strip` / regex `\s`, restricted to the
ASCII whitespace characters (the texts handled in this development are
ASCII). -/
def isPySpace (c : Char) : Bool :=
  c = ' ' || c = '\t' || c = '\n' || c = '\r' ||
    c = Char.ofNat 11 || c = Char.ofNat 12

/-- Embedding of `str.strip()`: drop whitespace from both ends. -/
def pyStrip (s : List Char) : List Char :=
  ((s.dropWhile isPySpace).reverse.dropWhile isPySpace).reverse

/-- Split at the first occurrence of `c`: `some (before, after)` with
`before ++ c :: after` the input, `c ∉ before`; `none` if `c` is absent. -/
def splitFirst (c : Char) : List Char → Option (List Char × List Char)
  | [] => none
  | d :: t =>
    if d = c then some ([], t)
    else (splitFirst c t).map (fun p => (d :: p.1, p.2))

/-- Table of named character references the embedding of `html.unescape`
recognises (the common subset; the development only ever evaluates it on
entity-free text, where the scanner below is the identity). -/
def entityTable : List (List Char × Char) :=
  [("amp".data, '&'), ("lt".data, '<'), ("gt".data, '>'),
   ("quot".data, '"'), ("#39".data, '\'')]

/-- Lookup of an entity name. -/
def entityChar (name : List Char) : Option Char :=
  match entityTable.find? (fun p => p.1 = name) with
  | some p => some p.2
  | none => none

/-- Scanner of the `html.unescape` embedding.  `fuel` only makes the
recursion structural; every step consumes at least one character, so
`fuel = length` never runs out. -/
def htmlUnescapeF : Nat → List Char → List Char
  | 0, l => l
  | _ + 1, [] => []
  | fuel + 1, c :: t =>
    if c = '&' then
      match splitFirst ';' t with
      | some p =>
        match entityChar p.1 with
        | some ch => ch :: htmlUnescapeF fuel p.2
        | none => '&' :: htmlUnescapeF fuel t
      | none => '&' :: htmlUnescapeF fuel t
    else c :: htmlUnescapeF fuel t

/-- Embedding of `html.unescape`: replace each `&name;` whose name the table
knows by its character; leave any other text, `&` included, unchanged. -/
def htmlUnescape (l : List Char) : List Char := htmlUnescapeF l.length l

/-- Scanner of the tag-stripping substitution, with the same structural
`fuel`. -/
def stripTagsF : Nat → List Char → List Char
  | 0, l => l
  | _ + 1, [] => []
  | fuel + 1, c :: t =>
    if c = '<' then
      match splitFirst '>' t with
      | some ([], _) => '<' :: stripTagsF fuel t
      | some (_ :: _, after) => '\n' :: stripTagsF fuel after
      | none => '<' :: stripTagsF fuel t
    else c :: stripTagsF fuel t

/-- Embedding of `re.sub(r"<[^>]+>", "\n", text)`, the fallback tag
stripper: each `<`, followed by at least one non-`>` character and then `>`,
is replaced together with that span by one newline; a `<` with no such
closing `>` is kept and scanning resumes after it. -/
def stripTags (l : List Char) : List Char := stripTagsF l.length l

/-- Emit a pending run of `n` newlines as `re.sub(r"\n{3,}", "\n\n", ·)`
does: a run of three or more collapses to exactly two. -/
def flushNl (n : Nat) : List Char :=
  if 3 ≤ n then ['\n', '\n'] else List.replicate n '\n'

/-- Scanner for the newline-collapsing substitution. -/
def collapseGo : Nat → List Char → List Char
  | n, [] => flushNl n
  | n, c :: t =>
    if c = '\n' then collapseGo (n + 1) t
    else flushNl n ++ c :: collapseGo 0 t

/-- Embedding of `re.sub(r"\n{3,}", "\n\n", cleaned)`. -/
def collapseNewlines (s : List Char) : List Char := collapseGo 0 s

/-- Embedding of `strip_html` (lines 67-81), fallback path: empty text maps
to the empty string, otherwise unescape entities, strip tags, collapse long
newline runs and trim. -/
def strip_html (text : String) : String :=
  if text = "" then ""
  else
    let t := htmlUnescape text.data
    let cleaned := stripTags t
    String.mk (pyStrip (collapseNewlines cleaned))

/-! Keyword matcher.  The regular expressions of `PART_TIME_KEYWORDS` are
compiled with `re.IGNORECASE`; the embedding interprets them over a small
regex language covering exactly the constructs those patterns use (literal
characters, character classes, `?`, a class under `*`, bounded repetition
unfolded into `?`, and the `\b` word boundary).  Matching follows Python's
leftmost-match backtracking order: the head of the continuation list
produced below is the span `re.search` reports.  `re.IGNORECASE` is
embedded by caseless character comparison; `\w`, `\d`, `\s` are taken at
their ASCII meaning (every text evaluated in this development is ASCII). -/

/-- Word character in the sense of regex `\b` (ASCII `\w`). -/
def isWordChar (c : Char) : Bool := c.isAlphanum || c = '_'

/-- Character class `[\s-]`. -/
def isSpaceDash (c : Char) : Bool := isPySpace c || c = '-'

/-- Regex abstract syntax: the fragment `PART_TIME_KEYWORDS` and escaped
literal keywords need. -/
inductive Rx where
  | eps
  | char (c : Char)
  | cls (p : Char → Bool)
  | seq (a b : Rx)
  | alt (a b : Rx)
  | opt (a : Rx)
  | starCls (p : Char → Bool)
  | wb

/-- Word-ness of the character just before the current position (text start
counts as non-word). -/
def prevIsWord : Option Char → Bool
  | none => false
  | some c => isWordChar c

/-- Word-ness of the character at the current position (text end counts as
non-word). -/
def nextIsWord : List Char → Bool
  | [] => false
  | c :: _ => isWordChar c

/-- Position is a `\b` boundary. -/
def atBoundary (prev : Option Char) (s : List Char) : Bool :=
  prevIsWord prev != nextIsWord s

/-- Continuations of matching `p*` greedily: longest consumption first, as
Python's backtracking tries it.  Each continuation is (last consumed
character, remaining text). -/
def runStar (p : Char → Bool) : Option Char → List Char → List (Option Char × List Char)
  | prev, [] => [(prev, [])]
  | prev, c :: rest =>
    (if p c then runStar p (some c) rest else []) ++ [(prev, c :: rest)]

/-- Continuations of matching a regex at the current position, in Python's
backtracking order (greedy alternatives first); the head, when the list is
non-empty, is the alternative `re.search` commits to. -/
def runRx : Rx → Option Char → List Char → List (Option Char × List Char)
  | Rx.eps, prev, s => [(prev, s)]
  | Rx.char _, _, [] => []
  | Rx.char c, _, d :: rest =>
    if d.toLower = c.toLower then [(some d, rest)] else []
  | Rx.cls _, _, [] => []
  | Rx.cls p, _, d :: rest => if p d then [(some d, rest)] else []
  | Rx.seq a b, prev, s => (runRx a prev s).flatMap (fun k => runRx b k.1 k.2)
  | Rx.alt a b, prev, s => runRx a prev s ++ runRx b prev s
  | Rx.opt a, prev, s => runRx a prev s ++ [(prev, s)]
  | Rx.starCls p, prev, s => runStar p prev s
  | Rx.wb, prev, s => if atBoundary prev s then [(prev, s)] else []

/-- Scan for the leftmost position where the regex matches, returning the
span `(m.start(), m.end())` that `re.search` reports. -/
def searchFrom (r : Rx) : Option Char → List Char → Nat → Option (Nat × Nat)
  | prev, s, pos =>
    match runRx r prev s with
    | k :: _ => some (pos, pos + (s.length - k.2.length))
    | [] =>
      match s with
      | [] => none
      | c :: t => searchFrom r (some c) t (pos + 1)

/-- Embedding of `pattern.search(text)`: `some (start, end)` of the match. -/
def rxSearch (r : Rx) (text : List Char) : Option (Nat × Nat) :=
  searchFrom r none text 0

/-- Literal string as a regex; also the image of `re.escape` on a keyword,
whose sole effect is that every character matches literally. -/
def rxLit (s : String) : Rx :=
  s.data.foldr (fun c acc => Rx.seq (Rx.char c) acc) Rx.eps

/-- Concatenation of a pattern list. -/
def rxCat (l : List Rx) : Rx := l.foldr Rx.seq Rx.eps

/-- Embedding of the ten regexes of `PART_TIME_KEYWORDS` (lines 38-49),
compiled with `re.IGNORECASE`, in source order. -/
def COMPILED_KEYWORDS : List Rx :=
  [ rxCat [Rx.wb, rxLit "part", Rx.opt (Rx.cls isSpaceDash), rxLit "time", Rx.wb],
    rxCat [Rx.wb, rxLit "contract", Rx.wb],
    rxCat [Rx.wb, rxLit "freelance", Rx.wb],
    rxCat [Rx.wb, rxLit "consulting", Rx.wb],
    rxCat [Rx.wb, rxLit "fractional", Rx.wb],
    rxCat [Rx.wb, rxLit "flexible hours", Rx.wb],
    rxCat [Rx.wb, rxLit "flexible schedule", Rx.wb],
    rxCat [Rx.wb, Rx.cls Char.isDigit, Rx.opt (Rx.cls Char.isDigit),
           Rx.opt (Rx.cls isSpaceDash), rxLit "hour", Rx.opt (Rx.char 's'),
           Rx.starCls isPySpace, Rx.char '/', Rx.starCls isPySpace,
           rxLit "week", Rx.wb],
    rxCat [Rx.wb, rxLit "project", Rx.opt (Rx.cls isSpaceDash), rxLit "based", Rx.wb],
    rxCat [Rx.wb, rxLit "hourly", Rx.wb] ]

/-- Embedding of `compile_keywords` (lines 206-212): the built-in patterns
followed by each extra keyword escaped for literal matching, all
case-insensitive.  `none` and the empty list coincide, as `if extra:` is a
truthiness test. -/
def compile_keywords (extra : Option (List String)) : List Rx :=
  COMPILED_KEYWORDS ++ (extra.getD []).map rxLit

/-- Evidence window of `matches_part_time` before the final `strip`:
`text[max(0, start-30) : min(len(text), end+30)]` with newlines replaced by
spaces (natural subtraction is the `max` with 0). -/
def snippetAt (text : List Char) (s e : Nat) : List Char :=
  (((text.drop (s - 30)).take (min text.length (e + 30) - (s - 30))).map
    (fun c => if c = '\n' then ' ' else c))

/-- Embedding of `matches_part_time` (lines 162-172): for each pattern in
order, search the text; on a match, append the stripped evidence snippet. -/
def matches_part_time (text : String) : List Rx → List String
  | [] => []
  | p :: rest =>
    match rxSearch p text.data with
    | some se =>
      String.mk (pyStrip (snippetAt text.data se.1 se.2))
        :: matches_part_time text rest
    | none => matches_part_time text rest

/-- Alternation `kw1|kw2|...` of a keyword list (the empty join, matching
everywhere, is never reached behind the `if args.keywords:` truthiness
guard). -/
def rxAlts : List Rx → Rx
  | [] => Rx.eps
  | [r] => r
  | r :: rest => Rx.alt r (rxAlts rest)

/-- Embedding of the extra-keyword gate of `main` (lines 314-317):
`re.search("|".join(re.escape(kw) for kw in keywords), text, re.IGNORECASE)`
is truthy. -/
def extraFilter (kws : List String) (text : String) : Bool :=
  (rxSearch (rxAlts (kws.map rxLit)) text.data).isSome

/-- Truthiness of `args.keywords` (`if args.keywords:`): a non-empty
list. -/
def keywordsTruthy : Option (List String) → Bool
  | none => false
  | some [] => false
  | some (_ :: _) => true

/-- Embedding of the filtering loop of `main` (lines 305-324) on the raw
texts of the fetched comments: normalize, keep texts matching some compiled
pattern, and, when extra keywords were passed (a non-empty list, by
truthiness), additionally require an extra-keyword match.  Each kept entry
carries (`clean_text`, `matched_keywords`) of the result record. -/
def mainFilter (keywords : Option (List String)) :
    List String → List (String × List String)
  | [] => []
  | raw :: rest =>
    let text := strip_html raw
    let matched := matches_part_time text (compile_keywords keywords)
    if matched.isEmpty then mainFilter keywords rest
    else if keywordsTruthy keywords then
      if extraFilter (keywords.getD []) text then
        (text, matched) :: mainFilter keywords rest
      else mainFilter keywords rest
    else (text, matched) :: mainFilter keywords rest

/-- Evidence snippet as §4.5 of the design words it, amended by the strip:
the window of the text reaching from 30 characters before the match start
to 30 characters after the match end, clipped to the text bounds, newlines
replaced by spaces — and then stripped of leading and trailing whitespace. -/
def snippetSpec (text : List Char) (s e : Nat) : List Char :=
  pyStrip (((text.take (min text.length (e + 30))).drop (s - 30)).map
    (fun c => if c = '\n' then ' ' else c))

/-- Inclusion predicate of the amended matching claim: a comment is kept
iff its normalized text matches at least one pattern of the combined set
and, when a non-empty extra keyword list was supplied, the text also
matches at least one extra keyword. -/
def includedSpec (keywords : Option (List String)) (raw : String) : Bool :=
  (!(matches_part_time (strip_html raw) (compile_keywords keywords)).isEmpty) &&
    (!keywordsTruthy keywords || extraFilter (keywords.getD []) (strip_html raw))

/-- Provenance of an item: it was already in the cache the run started
with, or the network serves it. -/
def itemSrc (net : Net) (cache0 : Cache) (cid : Int) (it : Item) : Prop :=
  lookupC cache0 cid = some it ∨ net cid = NetResult.item it

/-- Provenance invariant of a cache state relative to the run's starting
cache. -/
def CacheSrc (net : Net) (cache0 cache : Cache) : Prop :=
  ∀ i v, lookupC cache i = some v → itemSrc net cache0 i v

/-! Termination of the wave loop on finite trees.  Acyclicity of the item
graph is expressed by a rank function strictly decreasing from a parent to
each of its kids, both on the network and on the cache the run starts
with.  Every finite tree (or forest, or dag) of items admits such a rank:
the height of the node. -/

/-- Kids served by the network strictly decrease the rank. -/
def netOK (net : Net) (rank : Int → Nat) : Prop :=
  ∀ id it, net id = NetResult.item it → ∀ k ∈ it.kids, rank k < rank id

/-- Kids of items cached before the run strictly decrease the rank. -/
def cacheOK (cache : Cache) (rank : Int → Nat) : Prop :=
  ∀ id it, lookupC cache id = some it → ∀ k ∈ it.kids, rank k < rank id

/-- Largest rank of a wave (0 for the empty wave). -/
def waveRank (rank : Int → Nat) (todo : List Int) : Nat :=
  todo.foldr (fun i m => max (rank i) m) 0

/-! Shared lemmas about the traversal. -/

/-- Entries of `_ITEM_CACHE` are never evicted or changed by `fetch_item`. -/
theorem fetch_item_mono (net : Net) (cache : Cache) (id k : Int) (v : Item)
    (h : lookupC cache k = some v) :
    lookupC (fetch_item net cache id).2.1 k = some v := by
  unfold fetch_item
  cases h1 : lookupC cache id with
  | some it => simpa using h
  | none =>
    cases h2 : net id with
    | err => simpa using h
    | null => simpa using h
    | item it =>
      simp only [lookupC]
      by_cases hik : id = k
      · subst hik
        rw [h1] at h
        cases h
      · simp [hik, h]

/-- Entries of `_ITEM_CACHE` are never evicted or changed by a wave. -/
theorem processWave_mono (net : Net) (incl : Bool) :
    ∀ (todo : List Int) (cache : Cache) (comments : List Item) (k : Int) (v : Item),
      lookupC cache k = some v →
      lookupC (processWave net incl todo cache comments).1 k = some v := by
  intro todo
  induction todo with
  | nil => intro cache comments k v h; simpa [processWave] using h
  | cons cid rest ih =>
    intro cache comments k v h
    have hmono := fetch_item_mono net cache cid k v h
    rcases hfi : fetch_item net cache cid with ⟨res, cache', n⟩
    rw [hfi] at hmono
    cases res with
    | none => simpa [processWave, hfi] using ih cache' comments k v hmono
    | some it =>
      by_cases hd : (it.deleted || it.dead) = true
      · simpa [processWave, hfi, hd] using ih cache' comments k v hmono
      · have h2 := ih cache' (if it.text = "" then comments else comments ++ [it]) k v hmono
        rcases hw : processWave net incl rest cache'
            (if it.text = "" then comments else comments ++ [it]) with ⟨cF, mF, nF⟩
        rw [hw] at h2
        simpa [processWave, hfi, hd, hw] using h2

/-- Entries of `_ITEM_CACHE` are never evicted or changed by the wave loop. -/
theorem fetchLoop_mono (net : Net) (incl : Bool) :
    ∀ (fuel : Nat) (todo : List Int) (cache : Cache) (comments cF : List Item)
      (cacheF : Cache) (k : Int) (v : Item),
      fetchLoop net incl fuel todo cache comments = some (cF, cacheF) →
      lookupC cache k = some v → lookupC cacheF k = some v := by
  intro fuel
  induction fuel with
  | zero =>
    intro todo cache comments cF cacheF k v hrun h
    cases todo with
    | nil =>
      simp only [fetchLoop, Option.some.injEq, Prod.mk.injEq] at hrun
      rw [← hrun.2]
      exact h
    | cons cid rest => simp [fetchLoop] at hrun
  | succ fuel ih =>
    intro todo cache comments cF cacheF k v hrun h
    cases todo with
    | nil =>
      simp only [fetchLoop, Option.some.injEq, Prod.mk.injEq] at hrun
      rw [← hrun.2]
      exact h
    | cons cid rest =>
      rcases hw : processWave net incl (cid :: rest) cache comments with ⟨cache', comments', next⟩
      rw [fetchLoop, hw] at hrun
      have h' := processWave_mono net incl (cid :: rest) cache comments k v h
      rw [hw] at h'
      exact ih next cache' comments' cF cacheF k v hrun h'

/-- Items appended to `comments` by a wave all passed the deleted/dead
check. -/
theorem processWave_flags (net : Net) (incl : Bool) :
    ∀ (todo : List Int) (cache : Cache) (comments : List Item),
      (∀ it ∈ comments, it.deleted = false ∧ it.dead = false) →
      ∀ it ∈ (processWave net incl todo cache comments).2.1,
        it.deleted = false ∧ it.dead = false := by
  intro todo
  induction todo with
  | nil => intro cache comments h; simpa [processWave] using h
  | cons cid rest ih =>
    intro cache comments h
    rcases hfi : fetch_item net cache cid with ⟨res, cache', n⟩
    cases res with
    | none => simpa [processWave, hfi] using ih cache' comments h
    | some it =>
      by_cases hd : (it.deleted || it.dead) = true
      · simpa [processWave, hfi, hd] using ih cache' comments h
      · have hflag : it.deleted = false ∧ it.dead = false := by
          constructor
          · cases hdel : it.deleted
            · rfl
            · exact absurd (by simp [hdel]) hd
          · cases hdead : it.dead
            · rfl
            · exact absurd (by simp [hdead]) hd
        have h2 : ∀ x ∈ (if it.text = "" then comments else comments ++ [it]),
            x.deleted = false ∧ x.dead = false := by
          intro x hx
          by_cases ht : it.text = ""
          · rw [if_pos ht] at hx
            exact h x hx
          · rw [if_neg ht] at hx
            rcases List.mem_append.mp hx with hx1 | hx1
            · exact h x hx1
            · rw [List.mem_singleton.mp hx1]
              exact hflag
        have h3 := ih cache' (if it.text = "" then comments else comments ++ [it]) h2
        rcases hw : processWave net incl rest cache'
            (if it.text = "" then comments else comments ++ [it]) with ⟨cF, mF, nF⟩
        rw [hw] at h3
        simpa [processWave, hfi, hd, hw] using h3

/-- Items in a completed run's `comments` all passed the deleted/dead
check. -/
theorem fetchLoop_flags (net : Net) (incl : Bool) :
    ∀ (fuel : Nat) (todo : List Int) (cache : Cache) (comments cF : List Item)
      (cacheF : Cache),
      fetchLoop net incl fuel todo cache comments = some (cF, cacheF) →
      (∀ it ∈ comments, it.deleted = false ∧ it.dead = false) →
      ∀ it ∈ cF, it.deleted = false ∧ it.dead = false := by
  intro fuel
  induction fuel with
  | zero =>
    intro todo cache comments cF cacheF hrun h
    cases todo with
    | nil =>
      simp only [fetchLoop, Option.some.injEq, Prod.mk.injEq] at hrun
      rw [← hrun.1]
      exact h
    | cons cid rest => simp [fetchLoop] at hrun
  | succ fuel ih =>
    intro todo cache comments cF cacheF hrun h
    cases todo with
    | nil =>
      simp only [fetchLoop, Option.some.injEq, Prod.mk.injEq] at hrun
      rw [← hrun.1]
      exact h
    | cons cid rest =>
      rcases hw : processWave net incl (cid :: rest) cache comments with ⟨cache', comments', next⟩
      rw [fetchLoop, hw] at hrun
      have h' := processWave_flags net incl (cid :: rest) cache comments h
      rw [hw] at h'
      exact ih next cache' comments' cF cacheF hrun h'

theorem CacheSrc_refl (net : Net) (cache : Cache) : CacheSrc net cache cache :=
  fun _ _ h => Or.inl h

/-- Provenance is preserved by `fetch_item`, and the returned item has it. -/
theorem fetch_item_src (net : Net) (cache0 cache : Cache) (id : Int)
    (hc : CacheSrc net cache0 cache) :
    CacheSrc net cache0 (fetch_item net cache id).2.1 ∧
      ∀ it, (fetch_item net cache id).1 = some it → itemSrc net cache0 id it := by
  unfold fetch_item
  cases h1 : lookupC cache id with
  | some it =>
    refine ⟨hc, ?_⟩
    intro it' h'
    simp only [Option.some.injEq] at h'
    rw [← h']
    exact hc id it h1
  | none =>
    cases h2 : net id with
    | err => exact ⟨hc, fun it' h' => by cases h'⟩
    | null => exact ⟨hc, fun it' h' => by cases h'⟩
    | item it =>
      constructor
      · intro i v hv
        simp only [lookupC] at hv
        by_cases hik : id = i
        · subst hik
          simp at hv
          subst hv
          exact Or.inr h2
        · rw [if_neg hik] at hv
          exact hc i v hv
      · intro it' h'
        simp only [Option.some.injEq] at h'
        rw [← h']
        exact Or.inr h2

/-- Provenance of a wave: the final cache keeps the invariant, and every id
of the next wave is a kid of a fetched item that passed the deleted/dead
check. -/
theorem processWave_src (net : Net) (incl : Bool) (cache0 : Cache) :
    ∀ (todo : List Int) (cache : Cache) (comments : List Item),
      CacheSrc net cache0 cache →
      CacheSrc net cache0 (processWave net incl todo cache comments).1 ∧
        ∀ k ∈ (processWave net incl todo cache comments).2.2,
          ∃ cid ∈ todo, ∃ par, itemSrc net cache0 cid par ∧
            par.deleted = false ∧ par.dead = false ∧ k ∈ par.kids := by
  intro todo
  induction todo with
  | nil =>
    intro cache comments hc
    exact ⟨by simpa [processWave] using hc, by simp [processWave]⟩
  | cons cid rest ih =>
    intro cache comments hc
    have hstep := fetch_item_src net cache0 cache cid hc
    rcases hfi : fetch_item net cache cid with ⟨res, cache', n⟩
    rw [hfi] at hstep
    cases res with
    | none =>
      have h2 := ih cache' comments hstep.1
      refine ⟨by simpa [processWave, hfi] using h2.1, ?_⟩
      intro k hk
      rw [show processWave net incl (cid :: rest) cache comments
            = processWave net incl rest cache' comments by
          simp [processWave, hfi]] at hk
      rcases h2.2 k hk with ⟨c, hcmem, par, hsrc, hdel, hdead, hkid⟩
      exact ⟨c, List.mem_cons_of_mem cid hcmem, par, hsrc, hdel, hdead, hkid⟩
    | some it =>
      by_cases hd : (it.deleted || it.dead) = true
      · have h2 := ih cache' comments hstep.1
        refine ⟨by simpa [processWave, hfi, hd] using h2.1, ?_⟩
        intro k hk
        rw [show processWave net incl (cid :: rest) cache comments
              = processWave net incl rest cache' comments by
            simp [processWave, hfi, hd]] at hk
        rcases h2.2 k hk with ⟨c, hcmem, par, hsrc, hdel, hdead, hkid⟩
        exact ⟨c, List.mem_cons_of_mem cid hcmem, par, hsrc, hdel, hdead, hkid⟩
      · have hflag : it.deleted = false ∧ it.dead = false := by
          constructor
          · cases hdel : it.deleted
            · rfl
            · exact absurd (by simp [hdel]) hd
          · cases hdead : it.dead
            · rfl
            · exact absurd (by simp [hdead]) hd
        have h2 := ih cache' (if it.text = "" then comments else comments ++ [it]) hstep.1
        rcases hw : processWave net incl rest cache'
            (if it.text = "" then comments else comments ++ [it]) with ⟨cF, mF, nF⟩
        rw [hw] at h2
        have hsplit : processWave net incl (cid :: rest) cache comments
            = (cF, mF, (if incl && !it.kids.isEmpty then
                it.kids.filter (fun k => (lookupC cache' k).isNone) else []) ++ nF) := by
          simp [processWave, hfi, hd, hw]
        refine ⟨by rw [hsplit]; exact h2.1, ?_⟩
        intro k hk
        rw [hsplit] at hk
        rcases List.mem_append.mp hk with hk1 | hk1
        · have hk2 : k ∈ it.kids := by
            by_cases hik : (incl && !it.kids.isEmpty) = true
            · rw [if_pos hik] at hk1
              exact List.mem_of_mem_filter hk1
            · rw [if_neg hik] at hk1
              cases hk1
          exact ⟨cid, List.mem_cons_self cid rest, it,
            hstep.2 it rfl, hflag.1, hflag.2, hk2⟩
        · rcases h2.2 k hk1 with ⟨c, hcmem, par, hsrc, hdel, hdead, hkid⟩
          exact ⟨c, List.mem_cons_of_mem cid hcmem, par, hsrc, hdel, hdead, hkid⟩

/-- Ids of the next wave were not in the cache when the wave started. -/
theorem processWave_next_uncached (net : Net) (incl : Bool) :
    ∀ (todo : List Int) (cache : Cache) (comments : List Item) (k : Int),
      k ∈ (processWave net incl todo cache comments).2.2 →
      lookupC cache k = none := by
  intro todo
  induction todo with
  | nil => intro cache comments k hk; simp [processWave] at hk
  | cons cid rest ih =>
    intro cache comments k hk
    have hnotsome : ∀ v, lookupC cache k = some v → False := by
      intro v hv
      have hv' := fetch_item_mono net cache cid k v hv
      rcases hfi : fetch_item net cache cid with ⟨res, cache', n⟩
      rw [hfi] at hv'
      cases res with
      | none =>
        rw [show processWave net incl (cid :: rest) cache comments
              = processWave net incl rest cache' comments by
            simp [processWave, hfi]] at hk
        have := ih cache' comments k hk
        rw [this] at hv'
        cases hv'
      | some it =>
        by_cases hd : (it.deleted || it.dead) = true
        · rw [show processWave net incl (cid :: rest) cache comments
                = processWave net incl rest cache' comments by
              simp [processWave, hfi, hd]] at hk
          have := ih cache' comments k hk
          rw [this] at hv'
          cases hv'
        · rcases hw : processWave net incl rest cache'
              (if it.text = "" then comments else comments ++ [it]) with ⟨cF, mF, nF⟩
          rw [show processWave net incl (cid :: rest) cache comments
                = (cF, mF, (if incl && !it.kids.isEmpty then
                    it.kids.filter (fun k => (lookupC cache' k).isNone) else []) ++ nF) by
              simp [processWave, hfi, hd, hw]] at hk
          rcases List.mem_append.mp hk with hk1 | hk1
          · by_cases hik : (incl && !it.kids.isEmpty) = true
            · rw [if_pos hik] at hk1
              have := List.of_mem_filter hk1
              rw [hv'] at this
              simp at this
            · rw [if_neg hik] at hk1
              cases hk1
          · have := ih cache' (if it.text = "" then comments else comments ++ [it]) k
                (by rw [hw]; exact hk1)
            rw [this] at hv'
            cases hv'
    cases hlc : lookupC cache k with
    | none => rfl
    | some v => exact absurd hlc (fun h => hnotsome v h)

theorem rank_le_waveRank (rank : Int → Nat) :
    ∀ (todo : List Int) (i : Int), i ∈ todo → rank i ≤ waveRank rank todo := by
  intro todo
  induction todo with
  | nil => intro i hi; cases hi
  | cons c t ih =>
    intro i hi
    rcases List.mem_cons.mp hi with h | h
    · subst h
      exact le_max_left _ _
    · exact le_trans (ih i h) (le_max_right _ _)

theorem waveRank_lt (rank : Int → Nat) :
    ∀ (todo : List Int) (B : Nat), 0 < B → (∀ i ∈ todo, rank i < B) →
      waveRank rank todo < B := by
  intro todo
  induction todo with
  | nil => intro B hB _; exact hB
  | cons c t ih =>
    intro B hB h
    exact max_lt (h c (List.mem_cons_self c t))
      (ih B hB (fun i hi => h i (List.mem_cons_of_mem c hi)))

/-- A run whose fuel exceeds the largest rank of its starting wave
completes: each wave's ids strictly drop in maximal rank. -/
theorem fetchLoop_term (net : Net) (incl : Bool) (rank : Int → Nat)
    (cache0 : Cache) (hnet : netOK net rank) (hcache : cacheOK cache0 rank) :
    ∀ (fuel : Nat) (todo : List Int) (cache : Cache) (comments : List Item),
      CacheSrc net cache0 cache → waveRank rank todo < fuel →
      (fetchLoop net incl fuel todo cache comments).isSome := by
  intro fuel
  induction fuel with
  | zero =>
    intro todo cache comments _ hlt
    cases hlt
  | succ fuel ih =>
    intro todo cache comments hsrc hlt
    cases todo with
    | nil => simp [fetchLoop]
    | cons cid rest =>
      have hsw := processWave_src net incl cache0 (cid :: rest) cache comments hsrc
      rcases hw : processWave net incl (cid :: rest) cache comments with ⟨cache', comments', next⟩
      rw [hw] at hsw
      rw [fetchLoop, hw]
      have hkids : ∀ k ∈ next, rank k < waveRank rank (cid :: rest) := by
        intro k hk
        rcases hsw.2 k hk with ⟨c, hcmem, par, hsrcp, _, _, hkid⟩
        have hlt2 : rank k < rank c := by
          rcases hsrcp with h | h
          · exact hcache c par h k hkid
          · exact hnet c par h k hkid
        exact lt_of_lt_of_le hlt2 (rank_le_waveRank rank (cid :: rest) c hcmem)
      cases next with
      | nil => simp [fetchLoop]
      | cons n0 ns =>
        have h0 : 0 < fuel := by
          have := hkids n0 (List.mem_cons_self n0 ns)
          omega
        refine ih (n0 :: ns) cache' comments' hsw.1 ?_
        have := waveRank_lt rank (n0 :: ns) (waveRank rank (cid :: rest)) (by
          have := hkids n0 (List.mem_cons_self n0 ns)
          omega) hkids
        omega

/-- Members of the deduplicated list come from the original list. -/
theorem pyDedup_subset :
    ∀ (seen l : List Int) (k : Int), k ∈ pyDedup seen l → k ∈ l := by
  intro seen l
  induction l generalizing seen with
  | nil => intro k hk; simp [pyDedup] at hk
  | cons x rest ih =>
    intro k hk
    by_cases hx : x ∈ seen
    · rw [pyDedup, if_pos hx] at hk
      exact List.mem_cons_of_mem x (ih seen k hk)
    · rw [pyDedup, if_neg hx] at hk
      rcases List.mem_cons.mp hk with h | h
      · exact h ▸ List.mem_cons_self x rest
      · exact List.mem_cons_of_mem x (ih (x :: seen) k h)

theorem lookupC_mem :
    ∀ (l : Cache) (id : Int) (v : Item), lookupC l id = some v → (id, v) ∈ l := by
  intro l
  induction l with
  | nil => intro id v h; cases h
  | cons p rest ih =>
    intro id v h
    rcases p with ⟨k0, v0⟩
    by_cases hk : k0 = id
    · subst hk
      rw [lookupC, if_pos rfl] at h
      simp only [Option.some.injEq] at h
      subst h
      exact List.mem_cons_self _ _
    · rw [lookupC, if_neg hk] at h
      exact List.mem_cons_of_mem _ (ih id v h)

/-- A table network satisfies the rank condition as soon as its rows do. -/
theorem netOf_ok (table : List (Int × Item)) (rank : Int → Nat)
    (h : ∀ p ∈ table, ∀ k ∈ p.2.kids, rank k < rank p.1) :
    netOK (netOf table) rank := by
  intro id it hid k hk
  unfold netOf at hid
  cases hl : lookupC table id with
  | none => rw [hl] at hid; cases hid
  | some v =>
    rw [hl] at hid
    simp only [NetResult.item.injEq] at hid
    subst hid
    exact h (id, v) (lookupC_mem table id v hl) k hk

theorem waveRank_le_of_subset (rank : Int → Nat) :
    ∀ (l1 l2 : List Int), (∀ k ∈ l1, k ∈ l2) →
      waveRank rank l1 ≤ waveRank rank l2 := by
  intro l1
  induction l1 with
  | nil => intro l2 _; exact Nat.zero_le _
  | cons c t ih =>
    intro l2 h
    refine max_le ?_ (ih l2 (fun k hk => h k (List.mem_cons_of_mem c hk)))
    exact rank_le_waveRank rank l2 c (h c (List.mem_cons_self c t))

/-! Claim theorems. -/

/-- C1 (amended): in every traversal run an item whose deleted or dead flag
is true is never present in the collected comments; however its children
are NOT explored — every id of a next wave is a kid of a fetched item that
passed the deleted/dead check, so the whole subtree under a deleted or
dead item is skipped. -/
theorem fetch_comments_excludes_deleted_and_skips_their_kids :
    (∀ (net : Net) (ids : List Int) (incl : Bool) (cache0 : Cache) (fuel : Nat)
       (res : List Item × Cache),
       fetch_comments net ids incl cache0 fuel = some res →
       ∀ it ∈ res.1, it.deleted = false ∧ it.dead = false) ∧
    (∀ (net : Net) (incl : Bool) (todo : List Int) (cache : Cache)
       (comments : List Item),
       ∀ k ∈ (processWave net incl todo cache comments).2.2,
         ∃ cid ∈ todo, ∃ par, itemSrc net cache cid par ∧
           par.deleted = false ∧ par.dead = false ∧ k ∈ par.kids) := by
  constructor
  · intro net ids incl cache0 fuel res hrun it hit
    rcases res with ⟨cF, cacheF⟩
    exact fetchLoop_flags net incl fuel (pyDedup [] ids) cache0 [] cF cacheF hrun
      (by intro x hx; cases hx) it hit
  · intro net incl todo cache comments k hk
    exact (processWave_src net incl cache todo cache comments
      (CacheSrc_refl net cache)).2 k hk

/-- C1 counterexample: with include-replies enabled, the children of a
deleted item are NOT explored, contradicting the claim.  Item 1 is deleted
and has the live, text-bearing kid 2; the run collects nothing and its
final cache shows id 2 was never fetched. -/
theorem deleted_item_kids_skipped_cex :
    fetch_comments
        (netOf [(1, ⟨true, false, "x", [2]⟩), (2, ⟨false, false, "y", []⟩)])
        [1] true [] 5
      = some ([], [((1:Int), ⟨true, false, "x", [2]⟩)]) ∧
    netOf [(1, ⟨true, false, "x", [2]⟩), (2, ⟨false, false, "y", []⟩)] 2
      = NetResult.item ⟨false, false, "y", []⟩ ∧
    (⟨false, false, "y", []⟩ : Item).deleted = false ∧
    (⟨false, false, "y", []⟩ : Item).dead = false ∧
    (⟨false, false, "y", []⟩ : Item).text ≠ "" := by
  refine ⟨by decide, by decide, rfl, rfl, by decide⟩

/-- Witness: a concrete completed run whose collected items all carry false
flags, and a concrete next-wave id 5 whose parent passed the check. -/
theorem fetch_comments_excludes_deleted_witness :
    (fetch_comments
        (netOf [(1, ⟨false, false, "a", [2]⟩), (2, ⟨false, false, "b", []⟩)])
        [1] true [] 3
      = some ([⟨false, false, "a", [2]⟩, ⟨false, false, "b", []⟩],
              [((2:Int), ⟨false, false, "b", []⟩), (1, ⟨false, false, "a", [2]⟩)])) ∧
    (∀ it ∈ (([⟨false, false, "a", [2]⟩, ⟨false, false, "b", []⟩],
              [((2:Int), ⟨false, false, "b", []⟩), (1, ⟨false, false, "a", [2]⟩)]) :
              List Item × Cache).1,
       it.deleted = false ∧ it.dead = false) ∧
    ((5:Int) ∈ (processWave (netOf [(1, ⟨false, false, "a", [5]⟩)]) true
        [1] [] []).2.2) ∧
    (∃ cid ∈ [(1:Int)], ∃ par,
       itemSrc (netOf [(1, ⟨false, false, "a", [5]⟩)]) [] cid par ∧
         par.deleted = false ∧ par.dead = false ∧ (5:Int) ∈ par.kids) :=
  ⟨by decide,
   fetch_comments_excludes_deleted_and_skips_their_kids.1
     (netOf [(1, ⟨false, false, "a", [2]⟩), (2, ⟨false, false, "b", []⟩)])
     [1] true [] 3 _ (by decide),
   by decide,
   fetch_comments_excludes_deleted_and_skips_their_kids.2
     (netOf [(1, ⟨false, false, "a", [5]⟩)]) true [1] [] [] 5 (by decide)⟩

/-- C2 (amended): an id already present in `_ITEM_CACHE` when a wave starts
is never scheduled into the next wave; the code has no visited set, so this
cache test is the only deduplication, and an uncached id can be scheduled
several times. -/
theorem scheduled_ids_were_uncached (net : Net) (incl : Bool)
    (todo : List Int) (cache : Cache) (comments : List Item) (k : Int)
    (hk : k ∈ (processWave net incl todo cache comments).2.2) :
    lookupC cache k = none :=
  processWave_next_uncached net incl todo cache comments k hk

/-- C2 counterexample: id 5, kid of the two parents 1 and 2 of the same
wave, is scheduled twice in the next wave, and its item is then collected
twice — refuting that no id is ever scheduled for fetch more than once. -/
theorem duplicate_scheduling_cex :
    (processWave
        (netOf [(1, ⟨false, false, "a", [5]⟩), (2, ⟨false, false, "b", [5]⟩),
                (5, ⟨false, false, "c", []⟩)]) true [1, 2] [] []).2.2
      = [5, 5] ∧
    fetch_comments
        (netOf [(1, ⟨false, false, "a", [5]⟩), (2, ⟨false, false, "b", [5]⟩),
                (5, ⟨false, false, "c", []⟩)]) [1, 2] true [] 5
      = some ([⟨false, false, "a", [5]⟩, ⟨false, false, "b", [5]⟩,
               ⟨false, false, "c", []⟩, ⟨false, false, "c", []⟩],
              [((5:Int), ⟨false, false, "c", []⟩), (2, ⟨false, false, "b", [5]⟩),
               (1, ⟨false, false, "a", [5]⟩)]) := by
  exact ⟨by decide, by decide⟩

/-- Witness: the concrete scheduled id 5 of a one-parent wave was not in
the starting cache. -/
theorem scheduled_ids_were_uncached_witness :
    ((5:Int) ∈ (processWave (netOf [(1, ⟨false, false, "a", [5]⟩)]) true
        [1] [] []).2.2) ∧
    lookupC [] 5 = none :=
  ⟨by decide,
   scheduled_ids_were_uncached (netOf [(1, ⟨false, false, "a", [5]⟩)])
     true [1] [] [] 5 (by decide)⟩

/-- C3: on a finite acyclic item graph — witnessed by a rank strictly
decreasing from parents to kids, as the height of a finite tree does — the
wave loop empties its pending set within `waveRank + 1` waves, and
`fetch_comments` returns its collected comments. -/
theorem fetch_comments_terminates (net : Net) (rank : Int → Nat)
    (ids : List Int) (incl : Bool) (cache0 : Cache) (fuel : Nat)
    (hnet : netOK net rank) (hcache : cacheOK cache0 rank)
    (hfuel : waveRank rank ids < fuel) :
    ∃ res, fetch_comments net ids incl cache0 fuel = some res := by
  have hrank : waveRank rank (pyDedup [] ids) ≤ waveRank rank ids :=
    waveRank_le_of_subset rank _ ids (fun k hk => pyDedup_subset [] ids k hk)
  have h := fetchLoop_term net incl rank cache0 hnet hcache fuel
    (pyDedup [] ids) cache0 [] (CacheSrc_refl net cache0)
    (lt_of_le_of_lt hrank hfuel)
  unfold fetch_comments
  exact Option.isSome_iff_exists.mp h

/-- Witness: a two-level tree (1 has kid 2) ranked by height terminates
with fuel 2. -/
theorem fetch_comments_terminates_witness :
    (waveRank (fun i => if i = 1 then 1 else 0) [(1:Int)] < 2) ∧
    ∃ res, fetch_comments
        (netOf [(1, ⟨false, false, "a", [2]⟩), (2, ⟨false, false, "b", []⟩)])
        [1] true [] 2 = some res :=
  ⟨by decide,
   fetch_comments_terminates
     (netOf [(1, ⟨false, false, "a", [2]⟩), (2, ⟨false, false, "b", []⟩)])
     (fun i => if i = 1 then 1 else 0) [1] true [] 2
     (netOf_ok _ _ (by decide))
     (by intro id it h; cases h)
     (by decide)⟩

/-- C9 (amended): the module-level `_ITEM_CACHE` is NOT rebuilt per
traversal run — a run completes with a cache that still contains every
entry it started with, so a later run starting from that cache observes
everything the earlier run left behind. -/
theorem cache_persists_across_runs (net : Net) (ids : List Int) (incl : Bool)
    (cache0 : Cache) (fuel : Nat) (res : List Item × Cache)
    (hrun : fetch_comments net ids incl cache0 fuel = some res) :
    ∀ id it, lookupC cache0 id = some it → lookupC res.2 id = some it := by
  intro id it h
  rcases res with ⟨cF, cacheF⟩
  exact fetchLoop_mono net incl fuel (pyDedup [] ids) cache0 [] cF cacheF
    id it hrun h

/-- C9 counterexample: a second run over the same tree, starting from the
cache the first run left in the module-level dict, returns fewer comments
than the first (fresh-cache) run — the leftover entries are observed, both
as served items and as suppressed scheduling of cached kid 2. -/
theorem second_run_observes_previous_cache_cex :
    fetch_comments
        (netOf [(1, ⟨false, false, "a", [2]⟩), (2, ⟨false, false, "b", []⟩)])
        [1] true [] 3
      = some ([⟨false, false, "a", [2]⟩, ⟨false, false, "b", []⟩],
              [((2:Int), ⟨false, false, "b", []⟩), (1, ⟨false, false, "a", [2]⟩)]) ∧
    fetch_comments
        (netOf [(1, ⟨false, false, "a", [2]⟩), (2, ⟨false, false, "b", []⟩)])
        [1] true
        [((2:Int), ⟨false, false, "b", []⟩), (1, ⟨false, false, "a", [2]⟩)] 3
      = some ([⟨false, false, "a", [2]⟩],
              [((2:Int), ⟨false, false, "b", []⟩), (1, ⟨false, false, "a", [2]⟩)]) ∧
    ([(⟨false, false, "a", [2]⟩ : Item)] ≠
      [⟨false, false, "a", [2]⟩, ⟨false, false, "b", []⟩]) := by
  exact ⟨by decide, by decide, by decide⟩

/-- Witness: a run seeded with a cached entry for id 7 still exposes that
entry in its final cache. -/
theorem cache_persists_across_runs_witness :
    (fetch_comments (netOf []) [] true [((7:Int), ⟨false, false, "z", []⟩)] 1
      = some ([], [((7:Int), ⟨false, false, "z", []⟩)])) ∧
    lookupC [((7:Int), ⟨false, false, "z", []⟩)] 7 = some ⟨false, false, "z", []⟩ ∧
    lookupC (([], [((7:Int), ⟨false, false, "z", []⟩)]) : List Item × Cache).2 7
      = some ⟨false, false, "z", []⟩ :=
  ⟨by decide, by decide,
   cache_persists_across_runs (netOf []) [] true
     [((7:Int), ⟨false, false, "z", []⟩)] 1 _ (by decide) 7 _ (by decide)⟩

theorem retryGet_always_503 :
    ∀ (b attempt : Nat), retryGet (fun _ => 503) attempt b
      = (Except.error NetworkError.tooManyRetries, b + 1) := by
  intro b
  induction b with
  | zero => intro attempt; simp [retryGet, status_forcelist]
  | succ b ih =>
    intro attempt
    simp [retryGet, status_forcelist, ih (attempt + 1)]

/-- C5: a GET whose server always answers 503 is attempted exactly
`retries + 1` times in total, and the session surfaces the terminal
`NetworkError` instead of a payload; at the default `retries = 3` that is
4 attempts. -/
theorem always_503_attempts_retries_plus_one :
    (∀ retries, sessionGet (fun _ => 503) retries
      = (Except.error NetworkError.tooManyRetries, retries + 1)) ∧
    sessionGet (fun _ => 503) get_session_retries_default
      = (Except.error NetworkError.tooManyRetries, 4) := by
  constructor
  · intro retries
    exact retryGet_always_503 retries 0
  · exact retryGet_always_503 3 0

/-- C6: fetching the same id twice through the item cache returns the same
content both times, the second call performs at most one network call, and
no cache entry is ever evicted or changed by a call. -/
theorem fetch_item_idempotent (net : Net) (cache : Cache) (id : Int) :
    (fetch_item net (fetch_item net cache id).2.1 id).1
      = (fetch_item net cache id).1 ∧
    (fetch_item net (fetch_item net cache id).2.1 id).2.2 ≤ 1 ∧
    (∀ k v, lookupC cache k = some v →
      lookupC (fetch_item net cache id).2.1 k = some v) := by
  refine ⟨?_, ?_, fun k v h => fetch_item_mono net cache id k v h⟩
  · cases h1 : lookupC cache id with
    | some it => simp [fetch_item, h1]
    | none =>
      cases h2 : net id with
      | err => simp [fetch_item, h1, h2]
      | null => simp [fetch_item, h1, h2]
      | item it => simp [fetch_item, h1, h2, lookupC]
  · cases h1 : lookupC cache id with
    | some it => simp [fetch_item, h1]
    | none =>
      cases h2 : net id with
      | err => simp [fetch_item, h1, h2]
      | null => simp [fetch_item, h1, h2]
      | item it => simp [fetch_item, h1, h2, lookupC]

/-- Witness: a concrete double fetch of uncached id 3 next to a cached
entry for id 7 that survives unchanged. -/
theorem fetch_item_idempotent_witness :
    (lookupC [((7:Int), ⟨false, false, "z", []⟩)] 7 = some ⟨false, false, "z", []⟩) ∧
    ((fetch_item (netOf [])
        (fetch_item (netOf []) [((7:Int), ⟨false, false, "z", []⟩)] 3).2.1 3).1
      = (fetch_item (netOf []) [((7:Int), ⟨false, false, "z", []⟩)] 3).1) ∧
    lookupC (fetch_item (netOf []) [((7:Int), ⟨false, false, "z", []⟩)] 3).2.1 7
      = some ⟨false, false, "z", []⟩ :=
  ⟨by decide,
   (fetch_item_idempotent (netOf []) [((7:Int), ⟨false, false, "z", []⟩)] 3).1,
   (fetch_item_idempotent (netOf []) [((7:Int), ⟨false, false, "z", []⟩)] 3).2.2
     7 ⟨false, false, "z", []⟩ (by decide)⟩

/-- C10: on an uncached id, `fetch_item` returns `None` instead of raising
on a network or HTTP error and leaves the cache unchanged; a `null`
(non-dict) payload is likewise returned to the caller as Python `None`
without being cached; only a dict payload is stored. -/
theorem fetch_item_never_raises_caches_only_dicts (net : Net) (cache : Cache)
    (id : Int) (hunc : lookupC cache id = none) :
    (net id = NetResult.err → fetch_item net cache id = (none, cache, 1)) ∧
    (net id = NetResult.null → fetch_item net cache id = (none, cache, 1)) ∧
    (∀ it, net id = NetResult.item it →
      fetch_item net cache id = (some it, (id, it) :: cache, 1)) := by
  refine ⟨?_, ?_, ?_⟩
  · intro h
    simp [fetch_item, hunc, h]
  · intro h
    simp [fetch_item, hunc, h]
  · intro it h
    simp [fetch_item, hunc, h]

/-- Witness: a network erring on id 1 and answering `null` on id 2. -/
theorem fetch_item_never_raises_witness :
    (lookupC [] 1 = none) ∧
    fetch_item (fun i => if i = (1:Int) then NetResult.err else NetResult.null)
        [] 1 = (none, [], 1) ∧
    fetch_item (fun i => if i = (1:Int) then NetResult.err else NetResult.null)
        [] 2 = (none, [], 1) :=
  ⟨by decide,
   (fetch_item_never_raises_caches_only_dicts
     (fun i => if i = (1:Int) then NetResult.err else NetResult.null)
     [] 1 (by decide)).1 (by decide),
   (fetch_item_never_raises_caches_only_dicts
     (fun i => if i = (1:Int) then NetResult.err else NetResult.null)
     [] 2 (by decide)).2.1 (by decide)⟩

theorem htmlUnescapeF_id :
    ∀ (l : List Char) (fuel : Nat), l.length ≤ fuel → (∀ c ∈ l, c ≠ '&') →
      htmlUnescapeF fuel l = l := by
  intro l
  induction l with
  | nil => intro fuel _ _; cases fuel <;> rfl
  | cons c t ih =>
    intro fuel hlen h
    cases fuel with
    | zero => rfl
    | succ fuel =>
      have hc : c ≠ '&' := h c (List.mem_cons_self c t)
      rw [htmlUnescapeF, if_neg hc,
        ih fuel (by simp only [List.length_cons] at hlen; omega)
          (fun x hx => h x (List.mem_cons_of_mem c hx))]

theorem htmlUnescape_id (l : List Char) (h : ∀ c ∈ l, c ≠ '&') :
    htmlUnescape l = l :=
  htmlUnescapeF_id l l.length (le_refl _) h

theorem stripTagsF_id :
    ∀ (l : List Char) (fuel : Nat), l.length ≤ fuel → (∀ c ∈ l, c ≠ '<') →
      stripTagsF fuel l = l := by
  intro l
  induction l with
  | nil => intro fuel _ _; cases fuel <;> rfl
  | cons c t ih =>
    intro fuel hlen h
    cases fuel with
    | zero => rfl
    | succ fuel =>
      have hc : c ≠ '<' := h c (List.mem_cons_self c t)
      rw [stripTagsF, if_neg hc,
        ih fuel (by simp only [List.length_cons] at hlen; omega)
          (fun x hx => h x (List.mem_cons_of_mem c hx))]

theorem stripTags_id (l : List Char) (h : ∀ c ∈ l, c ≠ '<') :
    stripTags l = l :=
  stripTagsF_id l l.length (le_refl _) h

/-- C7 (amended): on text free of markup and entities, `strip_html` returns
the text with every run of three or more consecutive newline characters —
that is, two or more consecutive blank lines — collapsed to exactly two
newlines (one blank line), then trimmed of leading and trailing
whitespace. -/
theorem strip_html_plain_text (text : String)
    (h : ∀ c ∈ text.data, c ≠ '&' ∧ c ≠ '<') :
    strip_html text = String.mk (pyStrip (collapseNewlines text.data)) := by
  unfold strip_html
  by_cases he : text = ""
  · subst he
    rfl
  · rw [if_neg he]
    show String.mk (pyStrip (collapseNewlines (stripTags (htmlUnescape text.data))))
      = String.mk (pyStrip (collapseNewlines text.data))
    rw [htmlUnescape_id _ (fun c hc => (h c hc).1),
      stripTags_id _ (fun c hc => (h c hc).2)]

/-- C7 counterexample: the tag-free, entity-free, already-trimmed text
`"a\n\n\nb"` contains only two consecutive blank lines (no run of four
newlines), so by the claim it should come back unchanged; `strip_html`
nevertheless collapses it to `"a\n\nb"`. -/
theorem blank_line_threshold_cex :
    (∀ c ∈ ("a\n\n\nb" : String).data, c ≠ '&' ∧ c ≠ '<') ∧
    pyStrip ("a\n\n\nb" : String).data = ("a\n\n\nb" : String).data ∧
    ¬ (['\n', '\n', '\n', '\n'] <:+: ("a\n\n\nb" : String).data) ∧
    strip_html "a\n\n\nb" ≠ "a\n\n\nb" ∧
    strip_html "a\n\n\nb" = "a\n\nb" := by
  exact ⟨by decide, by decide, by decide, by decide, by decide⟩

/-- Witness: a concrete plain text with surrounding blanks and a long
newline run, normalized as the amended claim states. -/
theorem strip_html_plain_text_witness :
    (∀ c ∈ ("  a\n\n\n\nb " : String).data, c ≠ '&' ∧ c ≠ '<') ∧
    strip_html "  a\n\n\n\nb "
      = String.mk (pyStrip (collapseNewlines ("  a\n\n\n\nb " : String).data)) :=
  ⟨by decide, strip_html_plain_text "  a\n\n\n\nb " (by decide)⟩

theorem snippetAt_eq_spec (text : List Char) (s e : Nat) :
    pyStrip (snippetAt text s e) = snippetSpec text s e := by
  unfold snippetAt snippetSpec
  rw [List.drop_take]

/-- C8 (amended): for every text and pattern list, `matches_part_time`
returns one snippet string — not a (pattern, snippet) pair — per matching
pattern, in pattern order; the snippet is the window of the text from 30
characters before the match start to 30 characters after the match end,
clipped to the text bounds, newlines replaced by spaces, and then stripped
of leading and trailing whitespace. -/
theorem matches_part_time_returns_stripped_windows :
    ∀ (text : String) (pats : List Rx),
      matches_part_time text pats
        = pats.filterMap (fun p => (rxSearch p text.data).map
            (fun se => String.mk (snippetSpec text.data se.1 se.2))) := by
  intro text pats
  induction pats with
  | nil => rfl
  | cons p rest ih =>
    rw [matches_part_time]
    cases hs : rxSearch p text.data with
    | none => simp [List.filterMap_cons, hs, ih]
    | some se => simp [List.filterMap_cons, hs, ih, snippetAt_eq_spec]

/-- C8 counterexample: on `"  part-time"` the first built-in pattern
matches with span (2, 11); the exact clipped window is the whole text
`"  part-time"`, yet the entry returned is the stripped `"part-time"` (and
it is a bare string, not a (pattern, snippet) pair). -/
theorem exact_window_cex :
    rxSearch (COMPILED_KEYWORDS.getD 0 Rx.eps) ("  part-time" : String).data
      = some (2, 11) ∧
    snippetAt ("  part-time" : String).data 2 11 = ("  part-time" : String).data ∧
    matches_part_time "  part-time" COMPILED_KEYWORDS = ["part-time"] ∧
    (["part-time"] : List String)
      ≠ [String.mk (snippetAt ("  part-time" : String).data 2 11)] := by
  exact ⟨by decide, by decide, by decide, by decide⟩

/-- C4 (amended): extra keywords are escaped and appended to the built-in
pattern set, all case-insensitive; but an item is included in the results
iff its normalized text matches at least one pattern of the combined set
AND, when a non-empty extra keyword list is supplied, the text also matches
at least one of the extra keywords — matching only a built-in pattern does
not suffice then. -/
theorem mainFilter_includes_iff_spec :
    ∀ (keywords : Option (List String)) (texts : List String),
      mainFilter keywords texts
        = (texts.filter (includedSpec keywords)).map
            (fun raw => (strip_html raw,
              matches_part_time (strip_html raw) (compile_keywords keywords))) := by
  intro keywords texts
  induction texts with
  | nil => rfl
  | cons raw rest ih =>
    simp only [mainFilter]
    rw [List.filter_cons]
    cases hb : (matches_part_time (strip_html raw) (compile_keywords keywords)).isEmpty with
    | true =>
      have hinc : includedSpec keywords raw = false := by
        unfold includedSpec
        simp [hb]
      rw [if_pos rfl, hinc, ih]
      simp
    | false =>
      rw [if_neg Bool.false_ne_true]
      cases ht : keywordsTruthy keywords with
      | false =>
        have hinc : includedSpec keywords raw = true := by
          unfold includedSpec
          simp [hb, ht]
        rw [if_neg Bool.false_ne_true, hinc, ih]
        simp
      | true =>
        cases hx : extraFilter (keywords.getD []) (strip_html raw) with
        | true =>
          have hinc : includedSpec keywords raw = true := by
            unfold includedSpec
            simp [hb, ht, hx]
          rw [if_pos rfl, if_pos rfl, hinc, ih]
          simp
        | false =>
          have hinc : includedSpec keywords raw = false := by
            unfold includedSpec
            simp [hb, ht, hx]
          rw [if_pos rfl, if_neg Bool.false_ne_true, hinc, ih]
          simp

/-- C4 counterexample: with extra keyword "python", the text
`"part-time work"` matches a built-in pattern of the combined set, yet it
is excluded from the results because it matches no extra keyword. -/
theorem builtin_match_without_extra_cex :
    mainFilter (some ["python"]) ["part-time work"] = [] ∧
    matches_part_time (strip_html "part-time work")
      (compile_keywords (some ["python"])) ≠ [] := by
  exact ⟨by decide, by decide⟩

end HnJobs
